import Mathlib

/-!
Verification development for the `astquery` package: a query engine over Go
syntax trees.  The Go source is shallowly embedded below: the node universe is
an inductive mirroring the `go/ast` structs the package manipulates, the
traversal (`go/ast.Walk` with the package's pruning `visitFunc`) is an
accumulator-passing recursion over each node's walk children, and each filter
strategy (`SetFilter`, `RegexpFilter`, `MethodFilter`, `FilterFunc`) is a
Boolean function translated clause by clause from its Go `Filter` method.

The external `go/ast.Walk` is modeled by its traversal contract on tree nodes:
visit the node, and on a true verdict descend into its children in order.  Its
bookkeeping call `v.Visit(nil)` issued after the children of a non-matching
node is not modeled: every filter strategy of this package returns false on a
nil node (their extractors and type switch reject it), so that call can never
contribute to a result here.
-/

namespace AstQuery

mutual

/--
The node universe: one constructor per `go/ast` struct modeled here.  Fields of
static Go type `*ast.Ident` are carried as their `Name` string (the identifier
node itself reappears as a walk child via `Node.ident`); optional pointers
(`Recv *ast.FieldList`, `Body *ast.BlockStmt`, …) are `Option`s.

* `ident`        — `*ast.Ident` (its `Name` field has static type `string`);
* `basicLit`     — `*ast.BasicLit`;
* `selectorExpr` — `*ast.SelectorExpr` (`X ast.Expr`, `Sel *ast.Ident`);
* `starExpr`     — `*ast.StarExpr` (`X ast.Expr`);
* `arrayType`    — `*ast.ArrayType` (`Elt ast.Expr`);
* `typeSpec`     — `*ast.TypeSpec` (`Name *ast.Ident`, `Type ast.Expr`);
* `funcDecl`     — `*ast.FuncDecl` (`Recv *ast.FieldList`, `Name *ast.Ident`,
                   `Type *ast.FuncType`, `Body *ast.BlockStmt`);
* `funcTypeNode` — `*ast.FuncType`;
* `fieldListNode`— `*ast.FieldList`;
* `fieldNode`    — `*ast.Field` (`Names []*ast.Ident`, `Type ast.Expr`);
* `blockStmt`    — `*ast.BlockStmt`;
* `exprStmt`     — `*ast.ExprStmt`;
* `callExpr`     — `*ast.CallExpr` (`Fun ast.Expr`, `Args []ast.Expr`).
-/
inductive Node where
  | ident (name : String)
  | basicLit (value : String)
  | selectorExpr (x : Node) (sel : String)
  | starExpr (x : Node)
  | arrayType (elt : Node)
  | typeSpec (name : String) (ty : Node)
  | funcDecl (recv : Option FieldList) (name : String) (ftype : FuncType)
      (body : Option (List Node))
  | funcTypeNode (ft : FuncType)
  | fieldListNode (fl : FieldList)
  | fieldNode (f : Field)
  | blockStmt (stmts : List Node)
  | exprStmt (x : Node)
  | callExpr (fn : Node) (args : List Node)

/-- `*ast.FuncType`: parameter and result field lists (either may be nil). -/
inductive FuncType where
  | mk (params : Option FieldList) (results : Option FieldList)

/-- `*ast.FieldList`: its `List []*ast.Field` field. -/
inductive FieldList where
  | mk (list : List Field)

/-- `*ast.Field`: `Names []*ast.Ident` (carried as the name strings) and
`Type ast.Expr`. -/
inductive Field where
  | mk (names : List String) (ty : Node)

end

/-- The field list of a `FieldList` (Go: `recv.List`). -/
def FieldList.list : FieldList → List Field
  | .mk l => l

/-- The declared type of a `Field` (Go: `field.Type`). -/
def Field.ty : Field → Node
  | .mk _ t => t

/-- The names of a `Field` (Go: `field.Names`). -/
def Field.names : Field → List String
  | .mk ns _ => ns

/-- The dynamic type of a node, as compared by `reflect.TypeOf(node) == f.Type`
in the Go filters: one tag per `go/ast` struct pointer type. -/
inductive Kind where
  | ident | basicLit | selectorExpr | starExpr | arrayType | typeSpec
  | funcDecl | funcType | fieldList | field | blockStmt | exprStmt | callExpr
deriving DecidableEq

/-- `reflect.TypeOf` on a node. -/
def Node.kind : Node → Kind
  | .ident _ => .ident
  | .basicLit _ => .basicLit
  | .selectorExpr _ _ => .selectorExpr
  | .starExpr _ => .starExpr
  | .arrayType _ => .arrayType
  | .typeSpec _ _ => .typeSpec
  | .funcDecl _ _ _ _ => .funcDecl
  | .funcTypeNode _ => .funcType
  | .fieldListNode _ => .fieldList
  | .fieldNode _ => .field
  | .blockStmt _ => .blockStmt
  | .exprStmt _ => .exprStmt
  | .callExpr _ _ => .callExpr

/-- The value of a struct field as seen by `getStructField` through
`reflect`: either a (non-nil) `*ast.Ident` carrying a name, or a plain
`string`.  These are the only two field types the extractors inspect. -/
inductive FieldVal where
  | identVal (name : String)
  | strVal (s : String)
deriving DecidableEq

/-- `getStructField n "Name"`: the `Name` field of each modeled struct, when
present.  `*ast.Ident` has `Name string`; `*ast.TypeSpec` and `*ast.FuncDecl`
have `Name *ast.Ident`; no other modeled struct has a `Name` field
(`*ast.Field` has `Names`, which is a different field name). -/
def nameField : Node → Option FieldVal
  | .ident name => some (.strVal name)
  | .typeSpec name _ => some (.identVal name)
  | .funcDecl _ name _ _ => some (.identVal name)
  | _ => none

/-- `getStructField n "Sel"`: only `*ast.SelectorExpr` has a `Sel *ast.Ident`
field. -/
def selField : Node → Option FieldVal
  | .selectorExpr _ sel => some (.identVal sel)
  | _ => none

/-- `GetName` (the later extractor): probe the `Name` field, else the `Sel`
field; the probed value must then be an `*ast.Ident` (the type assertion
`ident_.(*ast.Ident)`), whose `Name` string is returned.  A `Name` field of
plain string type (as on `*ast.Ident` itself) is probed and fails the
assertion, so `Sel` is not consulted in that case. -/
def GetName (n : Node) : Option String :=
  let identField : Option FieldVal :=
    match nameField n with
    | some v => some v
    | none => selField n
  match identField with
  | some (.identVal name) => some name
  | _ => none

/-- `getName` (the earlier extractor, from the historical `ast.go`): probe the
`Name` field only, and require the value to be a plain `string` (the type
assertion `nameValue.(string)`). -/
def getName (n : Node) : Option String :=
  match nameField n with
  | some (.strVal s) => some s
  | _ => none

/-- A compiled regular expression, modeled by its `MatchString` method:
Go's `regexp.MatchString` reports whether the string contains *any* match of
the pattern (unanchored search). -/
structure Regexp where
  MatchString : String → Bool

/-- Whether `p` occurs as a contiguous substring of `s`. -/
def strHasSubstr (p s : String) : Bool :=
  s.data.tails.any fun t => p.data.isPrefixOf t

/-- A literal pattern (no anchors or metacharacters) compiled by Go's
`regexp`: per the unanchored `MatchString` contract it matches exactly the
strings containing the literal as a substring. -/
def Regexp.lit (p : String) : Regexp :=
  ⟨fun s => strHasSubstr p s⟩

/-- `SetFilter`: names plus a target `reflect.Type` (modeled as `Kind`). -/
structure SetFilter where
  Names : List String
  Type' : Kind

/-- `SetFilter.Filter`: extract the name via `GetName` (no name: no match);
scan `Names` for it; require `reflect.TypeOf(node) == f.Type && matched`. -/
def SetFilter.Filter (f : SetFilter) (node : Node) : Bool :=
  match GetName node with
  | none => false
  | some nodeName =>
    let matched := f.Names.any fun name => name == nodeName
    (node.kind == f.Type') && matched

/-- `RegexpFilter`: a compiled pattern plus a target `reflect.Type`. -/
structure RegexpFilter where
  Pattern : Regexp
  Type' : Kind

/-- `RegexpFilter.Filter`: extract the name via `GetName` (no name: no
match); require `reflect.TypeOf(node) == s.Type && s.Pattern.MatchString`. -/
def RegexpFilter.Filter (s : RegexpFilter) (node : Node) : Bool :=
  match GetName node with
  | none => false
  | some nodeName => (node.kind == s.Type') && s.Pattern.MatchString nodeName

/-- `typeName`: the base name of a type expression — recurse through
`*ast.StarExpr`, read off an `*ast.Ident`, and fail (`error` in Go, `none`
here) on every other shape. -/
def typeName : Node → Option String
  | .starExpr x => typeName x
  | .ident name => some name
  | _ => none

/-- `ast.Ident.IsExported` / `token.IsExported`: whether the first character
of the name is an upper-case letter (modeled for ASCII identifiers). -/
def isExported (name : String) : Bool :=
  match name.data with
  | [] => false
  | c :: _ => c.isUpper

/-- `MethodFilter`: a receiver type name (without `*`) and an exported-only
flag. -/
structure MethodFilter where
  ReceiverType : String
  ExportedOnly : Bool

/-- `MethodFilter.Filter`, translated clause by clause: only `*ast.FuncDecl`
can match; `recv == nil || len(recv.List) != 1` rejects; the receiver type is
resolved by `typeName` with the error discarded (`recvType, _ := ...`, so a
failed resolution leaves `recvType` as the empty string); `recvType` must
equal `ReceiverType`; if `ExportedOnly`, the declared name must be exported. -/
def MethodFilter.Filter (f : MethodFilter) (node : Node) : Bool :=
  match node with
  | .funcDecl recv name _ftype _body =>
    match recv with
    | none => false
    | some fl =>
      match fl.list with
      | [fld] =>
        let recvType := (typeName fld.ty).getD ""
        if recvType != f.ReceiverType then false
        else if f.ExportedOnly && !isExported name then false
        else true
      | _ => false
  | _ => false

/-- `FilterFunc`: an arbitrary predicate used directly as a filter. -/
def FilterFunc := Node → Bool

/-- `FilterFunc.Filter` just applies the wrapped function. -/
def FilterFunc.Filter (f : FilterFunc) : Node → Bool := f

/-- The walk children of a node, in the order `go/ast.Walk` descends into
them: for each modeled struct, exactly the (non-nil) node-valued fields, left
to right, with `[]*ast.Ident` and `[]*ast.Field` lists flattened in order. -/
def Node.children : Node → List Node
  | .ident _ => []
  | .basicLit _ => []
  | .selectorExpr x sel => [x, .ident sel]
  | .starExpr x => [x]
  | .arrayType elt => [elt]
  | .typeSpec name ty => [.ident name, ty]
  | .funcDecl recv name ftype body =>
    (match recv with
      | some fl => [Node.fieldListNode fl]
      | none => []) ++
    [.ident name, .funcTypeNode ftype] ++
    (match body with
      | some stmts => [Node.blockStmt stmts]
      | none => [])
  | .funcTypeNode (.mk params results) =>
    (match params with
      | some fl => [Node.fieldListNode fl]
      | none => []) ++
    (match results with
      | some fl => [Node.fieldListNode fl]
      | none => [])
  | .fieldListNode (.mk fields) => fields.map Node.fieldNode
  | .fieldNode (.mk names ty) => names.map Node.ident ++ [ty]
  | .blockStmt stmts => stmts
  | .exprStmt x => [x]
  | .callExpr fn args => fn :: args

/-- Iterated pointer indirection: `n` layers of `*ast.StarExpr` around a type
expression. -/
def nestStar : Nat → Node → Node
  | 0, t => t
  | n + 1, t => Node.starExpr (nestStar n t)

/-!
## Concrete fixtures used in closed instances of the claims
-/

/-- A type declaration named `B` nested inside `svcRoot`. -/
def svcInner : Node := Node.typeSpec "B" (Node.basicLit "x")

/-- A type declaration named `A` whose subtree contains `svcInner`. -/
def svcRoot : Node := Node.typeSpec "A" svcInner

/-- A set filter selecting type declarations named `A` or `B`. -/
def abFilter : SetFilter := ⟨["A", "B"], Kind.typeSpec⟩

/-- `func (s T) Get()` — a value receiver of type `T`. -/
def valueRecvDecl : Node :=
  Node.funcDecl (some (FieldList.mk [Field.mk ["s"] (Node.ident "T")])) "Get"
    (FuncType.mk none none) none

/-- `func (s *T) Get()` — a pointer receiver of type `T`. -/
def pointerRecvDecl : Node :=
  Node.funcDecl (some (FieldList.mk [Field.mk ["s"] (Node.starExpr (Node.ident "T"))]))
    "Get" (FuncType.mk none none) none

/-- A function declaration with two receiver fields of type `T` (malformed
input). -/
def twoRecvDecl : Node :=
  Node.funcDecl
    (some (FieldList.mk [Field.mk ["s"] (Node.ident "T"), Field.mk ["t"] (Node.ident "T")]))
    "Get" (FuncType.mk none none) none

/-- `func (s T) get()` — unexported method name. -/
def lowerGetDecl : Node :=
  Node.funcDecl (some (FieldList.mk [Field.mk ["s"] (Node.ident "T")])) "get"
    (FuncType.mk none none) none

/-- A receiver field whose type is the qualified name `pkg.T` — a shape
`typeName` cannot resolve. -/
def qualifiedRecvField : Field :=
  Field.mk ["s"] (Node.selectorExpr (Node.ident "pkg") "T")

/-- `func (s pkg.T) Get()` — its receiver type resolves to no base name. -/
def qualifiedRecvDecl : Node :=
  Node.funcDecl (some (FieldList.mk [qualifiedRecvField])) "Get"
    (FuncType.mk none none) none

/-- A receiver field whose type is an array type — a shape `typeName` cannot
resolve. -/
def sliceRecvField : Field := Field.mk ["s"] (Node.arrayType (Node.ident "T"))

/-- `func (s []T) Run()` — its receiver type resolves to no base name. -/
def sliceRecvDecl : Node :=
  Node.funcDecl (some (FieldList.mk [sliceRecvField])) "Run"
    (FuncType.mk none none) none

/-- `func (s T) Walk()` — a well-formed method on `T`. -/
def tRecvDecl : Node :=
  Node.funcDecl (some (FieldList.mk [Field.mk ["s"] (Node.ident "T")])) "Walk"
    (FuncType.mk none none) none

/-- A block containing one unresolvable-receiver candidate and one good
method of `T`. -/
def mixedBlock : Node := Node.blockStmt [sliceRecvDecl, tRecvDecl]

/-- A type declaration whose name properly contains `Service`. -/
def myServiceImplDecl : Node := Node.typeSpec "MyServiceImpl" (Node.basicLit "s")

theorem node_sizeOf_ge_one (n : Node) : 1 ≤ sizeOf n := by
  cases n <;> simp_arith

theorem funcType_sizeOf_ge_one (ft : FuncType) : 1 ≤ sizeOf ft := by
  cases ft; simp_arith

theorem sizeOf_lt_of_mem_children {c n : Node} (h : c ∈ n.children) :
    sizeOf c < sizeOf n := by
  cases n with
  | ident name => simp [Node.children] at h
  | basicLit v => simp [Node.children] at h
  | selectorExpr x sel =>
    simp [Node.children] at h
    rcases h with h | h <;> subst h <;> simp_arith
    · exact node_sizeOf_ge_one x
  | starExpr x =>
    simp [Node.children] at h
    subst h; simp_arith
  | arrayType elt =>
    simp [Node.children] at h
    subst h; simp_arith
  | typeSpec name ty =>
    simp [Node.children] at h
    rcases h with h | h <;> subst h <;> simp_arith
    · exact node_sizeOf_ge_one ty
  | funcDecl recv name ftype body =>
    have hft : 1 ≤ sizeOf ftype := funcType_sizeOf_ge_one ftype
    cases recv with
    | none =>
      cases body with
      | none =>
        simp [Node.children] at h
        rcases h with h | h <;> subst h <;> simp_arith
      | some stmts =>
        simp [Node.children] at h
        rcases h with h | h | h <;> subst h <;> simp_arith
    | some fl =>
      cases body with
      | none =>
        simp [Node.children] at h
        rcases h with h | h | h <;> subst h <;> simp_arith
      | some stmts =>
        simp [Node.children] at h
        rcases h with h | h | h | h <;> subst h <;> simp_arith
  | funcTypeNode ft =>
    cases ft with
    | mk params results =>
      cases params with
      | none =>
        cases results with
        | none => simp [Node.children] at h
        | some fl =>
          simp [Node.children] at h
          subst h; simp_arith
      | some fl =>
        cases results with
        | none =>
          simp [Node.children] at h
          subst h; simp_arith
        | some fl2 =>
          simp [Node.children] at h
          rcases h with h | h <;> subst h <;> simp_arith
  | fieldListNode fl =>
    cases fl with
    | mk fields =>
      simp [Node.children] at h
      rcases h with ⟨f, hf, rfl⟩
      have := List.sizeOf_lt_of_mem hf
      simp_arith
      omega
  | fieldNode f =>
    cases f with
    | mk names ty =>
      simp [Node.children] at h
      rcases h with ⟨s, hs, rfl⟩ | h
      · have := List.sizeOf_lt_of_mem hs
        have hty := node_sizeOf_ge_one ty
        simp_arith
        omega
      · subst h
        simp_arith
  | blockStmt stmts =>
    simp only [Node.children] at h
    have := List.sizeOf_lt_of_mem h
    simp_arith
    omega
  | exprStmt x =>
    simp [Node.children] at h
    subst h; simp_arith
  | callExpr fn args =>
    simp [Node.children] at h
    rcases h with h | h
    · subst h; simp_arith
    · have := List.sizeOf_lt_of_mem h
      simp_arith
      omega

/-!
## Traversal engine

`find` runs `go/ast.Walk` with the package's `visitFunc` closure: the closure
appends a matching node to the shared `found` slice and returns `false`
(prune), otherwise returns `true` and `Walk` descends into the children in
order.  `walkCollect` is that walk with the `found` slice passed explicitly.
-/

/-- The `ast.Walk` traversal of `find`'s closure over one node: on a match,
append the node to `found` and do not descend; otherwise fold the walk over
the children in order. -/
def walkCollect (filter : Node → Bool) (found : List Node) (n : Node) :
    List Node :=
  if filter n then found ++ [n]
  else n.children.attach.foldl (fun acc c => walkCollect filter acc c.1) found
termination_by sizeOf n
decreasing_by exact sizeOf_lt_of_mem_children c.2

/-- `find(node, filter)`: the collected matches starting from an empty
`found` slice. -/
def find (node : Node) (filter : Node → Bool) : List Node :=
  walkCollect filter [] node

/-- `Find(nodes, filter)`: `found = append(found, find(node, filter)...)` over
the roots in order. -/
def Find (nodes : List Node) (filter : Node → Bool) : List Node :=
  nodes.foldl (fun found node => found ++ find node filter) []

/-- The pruned match list of one root, written without the accumulator. -/
def find1 (filter : Node → Bool) (n : Node) : List Node :=
  if filter n then [n]
  else n.children.attach.flatMap fun c => find1 filter c.1
termination_by sizeOf n
decreasing_by exact sizeOf_lt_of_mem_children c.2

/-- The pre-order (document-order) enumeration of a tree's nodes. -/
def preorder (n : Node) : List Node :=
  n :: (n.children.attach.flatMap fun c => preorder c.1)
termination_by sizeOf n
decreasing_by exact sizeOf_lt_of_mem_children c.2

/-- The proper descendants of a node, in document order. -/
def strictDescendants (n : Node) : List Node :=
  n.children.flatMap preorder

theorem attach_flatMap {α β : Type} (l : List α) (f : α → List β) :
    (l.attach.flatMap fun c => f c.1) = l.flatMap f := by
  conv_rhs => rw [← List.attach_map_subtype_val l]
  rw [List.flatMap_map]

theorem attach_foldl {α β : Type} (l : List α) (g : β → α → β) (b : β) :
    (l.attach.foldl (fun acc c => g acc c.1) b) = l.foldl g b := by
  conv_rhs => rw [← List.attach_map_subtype_val l]
  rw [List.foldl_map]

theorem find1_def (filter : Node → Bool) (n : Node) :
    find1 filter n =
      if filter n then [n] else n.children.flatMap (find1 filter) := by
  rw [find1, attach_flatMap]

theorem preorder_def (n : Node) : preorder n = n :: strictDescendants n := by
  rw [preorder, strictDescendants, attach_flatMap]

theorem walkCollect_def (filter : Node → Bool) (found : List Node) (n : Node) :
    walkCollect filter found n =
      if filter n then found ++ [n]
      else n.children.foldl (walkCollect filter) found := by
  rw [walkCollect, attach_foldl]

/-- Induction over a node via its walk children. -/
def Node.childrenInd {P : Node → Prop}
    (h : ∀ n, (∀ c ∈ n.children, P c) → P n) : ∀ n, P n
  | n => h n fun c hc => Node.childrenInd h c
termination_by n => sizeOf n
decreasing_by exact sizeOf_lt_of_mem_children hc

theorem foldl_walkCollect (filter : Node → Bool) (l : List Node)
    (h : ∀ c ∈ l, ∀ found, walkCollect filter found c = found ++ find1 filter c) :
    ∀ found, l.foldl (walkCollect filter) found = found ++ l.flatMap (find1 filter) := by
  induction l with
  | nil => simp
  | cons a l ihl =>
    intro found
    rw [List.foldl_cons, h a (List.mem_cons_self a l),
      ihl (fun c hc => h c (List.mem_cons_of_mem a hc)), List.flatMap_cons,
      List.append_assoc]

/-- The accumulator-passing walk is the accumulator plus the pruned match
list. -/
theorem walkCollect_eq (filter : Node → Bool) :
    ∀ n found, walkCollect filter found n = found ++ find1 filter n := by
  refine Node.childrenInd (fun n ih found => ?_)
  rw [walkCollect_def, find1_def]
  by_cases hf : filter n
  · simp [hf]
  · simp only [hf, Bool.false_eq_true, if_false]
    exact foldl_walkCollect filter n.children ih found

/-- `find` agrees with the accumulator-free pruned match list. -/
theorem find_eq_find1 (node : Node) (filter : Node → Bool) :
    find node filter = find1 filter node := by
  rw [find, walkCollect_eq, List.nil_append]

/-- `Find` concatenates the per-root results in root order. -/
theorem Find_eq_flatMap (nodes : List Node) (filter : Node → Bool) :
    Find nodes filter = nodes.flatMap fun n => find n filter := by
  rw [Find]
  suffices h : ∀ (l : List Node) (acc : List Node),
      l.foldl (fun found node => found ++ find node filter) acc =
        acc ++ l.flatMap (fun n => find n filter) by
    simpa using h nodes []
  intro l
  induction l with
  | nil => simp
  | cons a l ihl =>
    intro acc
    rw [List.foldl_cons, ihl, List.flatMap_cons, List.append_assoc]

/-- Every collected node satisfies the filter. -/
theorem find1_sound (filter : Node → Bool) :
    ∀ n, ∀ m ∈ find1 filter n, filter m = true := by
  refine Node.childrenInd (fun n ih m hm => ?_)
  rw [find1_def] at hm
  by_cases hf : filter n
  · simp only [hf, if_true, List.mem_singleton] at hm
    subst hm; exact hf
  · simp only [hf, Bool.false_eq_true, if_false, List.mem_flatMap] at hm
    rcases hm with ⟨c, hc, hm⟩
    exact ih c hc m hm

theorem flatMap_sublist_flatMap {α β : Type} (l : List α) (f g : α → List β)
    (h : ∀ a ∈ l, (f a).Sublist (g a)) :
    (l.flatMap f).Sublist (l.flatMap g) := by
  induction l with
  | nil => simp
  | cons a l ihl =>
    rw [List.flatMap_cons, List.flatMap_cons]
    exact (h a (List.mem_cons_self a l)).append
      (ihl fun c hc => h c (List.mem_cons_of_mem a hc))

/-- The collected matches form a sublist of the pre-order enumeration: they
appear in document order, without repetition of positions. -/
theorem find1_sublist_preorder (filter : Node → Bool) :
    ∀ n, (find1 filter n).Sublist (preorder n) := by
  refine Node.childrenInd (fun n ih => ?_)
  rw [find1_def, preorder_def, strictDescendants]
  by_cases hf : filter n
  · simp only [hf, if_true]
    exact (List.nil_sublist _).cons₂ n
  · simp only [hf, Bool.false_eq_true, if_false]
    exact (flatMap_sublist_flatMap _ _ _ ih).cons n

/-- The subtree rooted at any node listed in `preorder t` enumerates into
`preorder t`. -/
theorem preorder_subset_of_mem {N : Node} :
    ∀ t, N ∈ preorder t → (preorder N) ⊆ preorder t := by
  refine Node.childrenInd (fun t ih hN => ?_)
  rw [preorder_def] at hN
  rcases List.mem_cons.1 hN with h | h
  · subst h
    exact List.Subset.refl _
  · unfold strictDescendants at h
    rw [List.mem_flatMap] at h
    rcases h with ⟨c, hc, hNc⟩
    intro x hx
    rw [preorder_def]
    refine List.mem_cons_of_mem t ?_
    unfold strictDescendants
    rw [List.mem_flatMap]
    exact ⟨c, hc, ih c hc hNc hx⟩

theorem strictDescendants_subset_preorder (n : Node) :
    strictDescendants n ⊆ preorder n := by
  rw [preorder_def]
  exact fun x hx => List.mem_cons_of_mem _ hx

theorem nodup_flatMap_parts {α β : Type} {l : List α} {f : α → List β}
    (h : (l.flatMap f).Nodup) :
    (∀ a ∈ l, (f a).Nodup) ∧ List.Pairwise (fun a b => (f a).Disjoint (f b)) l := by
  induction l with
  | nil => simp
  | cons a l ihl =>
    rw [List.flatMap_cons, List.nodup_append] at h
    rcases h with ⟨h1, h2, hd⟩
    rcases ihl h2 with ⟨hall, hpw⟩
    refine ⟨?_, ?_⟩
    · intro b hb
      rcases List.mem_cons.1 hb with rfl | hb
      · exact h1
      · exact hall b hb
    · refine List.Pairwise.cons ?_ hpw
      intro b hb x hxa hxb
      exact hd hxa (List.mem_flatMap.2 ⟨b, hb, hxb⟩)

theorem disjoint_of_nodup_flatMap {α β : Type} {l : List α} {f : α → List β}
    (h : (l.flatMap f).Nodup) {a b : α} (ha : a ∈ l) (hb : b ∈ l)
    (hab : a ≠ b) : (f a).Disjoint (f b) := by
  have hsymm : Symmetric (fun a b : α => (f a).Disjoint (f b)) := by
    intro u v huv x hxu hxv
    exact huv hxv hxu
  exact ((nodup_flatMap_parts h).2.forall hsymm) ha hb hab

/-- Match-pruning, in full generality: in a tree whose pre-order enumeration
has no duplicate node, no proper descendant of any node satisfying the filter
can appear in `find`'s result. -/
theorem find_pruning (filter : Node → Bool) :
    ∀ root, (preorder root).Nodup → ∀ N M, N ∈ preorder root →
      filter N = true → M ∈ strictDescendants N → M ∉ find root filter := by
  refine Node.childrenInd (fun root ih hnodup N M hN hfN hM hfind => ?_)
  rw [find_eq_find1, find1_def] at hfind
  rw [preorder_def] at hN hnodup
  have hroot_notin : root ∉ strictDescendants root := (List.nodup_cons.1 hnodup).1
  have hsd_nodup : (strictDescendants root).Nodup := (List.nodup_cons.1 hnodup).2
  unfold strictDescendants at hsd_nodup
  by_cases hf : filter root
  · simp only [hf, if_true, List.mem_singleton] at hfind
    subst hfind
    rcases List.mem_cons.1 hN with rfl | hNin
    · exact hroot_notin hM
    · unfold strictDescendants at hNin
      rw [List.mem_flatMap] at hNin
      rcases hNin with ⟨c, hc, hNc⟩
      have hMc : M ∈ preorder c :=
        preorder_subset_of_mem c hNc (strictDescendants_subset_preorder N hM)
      refine hroot_notin ?_
      unfold strictDescendants
      rw [List.mem_flatMap]
      exact ⟨c, hc, hMc⟩
  · simp only [hf, Bool.false_eq_true, if_false, List.mem_flatMap] at hfind
    rcases hfind with ⟨c, hc, hMc⟩
    rcases List.mem_cons.1 hN with rfl | hNin
    · rw [hfN] at hf
      exact hf rfl
    · unfold strictDescendants at hNin
      rw [List.mem_flatMap] at hNin
      rcases hNin with ⟨c', hc', hNc'⟩
      by_cases hcc : c = c'
      · subst hcc
        have hcnodup : (preorder c).Nodup := (nodup_flatMap_parts hsd_nodup).1 c hc
        exact ih c hc hcnodup N M hNc' hfN hM (by rw [find_eq_find1]; exact hMc)
      · have hdisj := disjoint_of_nodup_flatMap hsd_nodup hc hc' hcc
        have hM_in_c : M ∈ preorder c := (find1_sublist_preorder filter c).subset hMc
        have hM_in_c' : M ∈ preorder c' :=
          preorder_subset_of_mem c' hNc' (strictDescendants_subset_preorder N hM)
        exact hdisj hM_in_c hM_in_c'

/-!
## Soundness of `find`/`Find` and filter characterizations
-/

theorem find_sound {filter : Node → Bool} {n m : Node} (h : m ∈ find n filter) :
    filter m = true := by
  rw [find_eq_find1] at h
  exact find1_sound filter n m h

theorem Find_sound {filter : Node → Bool} {nodes : List Node} {m : Node}
    (h : m ∈ Find nodes filter) : filter m = true := by
  rw [Find_eq_flatMap, List.mem_flatMap] at h
  rcases h with ⟨n, _, hm⟩
  exact find_sound hm

theorem Find_sublist (nodes : List Node) (filter : Node → Bool) :
    (Find nodes filter).Sublist (nodes.flatMap preorder) := by
  rw [Find_eq_flatMap]
  refine flatMap_sublist_flatMap _ _ _ fun n _ => ?_
  rw [find_eq_find1]
  exact find1_sublist_preorder filter n

/-- What `SetFilter.Filter` accepts: the node's extracted identifier exists,
the node's dynamic type equals the configured type, and the identifier is a
member of the name list. -/
theorem setFilter_iff (f : SetFilter) (node : Node) :
    SetFilter.Filter f node = true ↔
      node.kind = f.Type' ∧ ∃ nm, GetName node = some nm ∧ nm ∈ f.Names := by
  unfold SetFilter.Filter
  cases hg : GetName node with
  | none => simp
  | some nm => simp [List.any_eq_true]

/-- What `RegexpFilter.Filter` accepts: the extracted identifier exists, the
dynamic type matches, and `MatchString` finds an occurrence in the
identifier. -/
theorem regexpFilter_iff (f : RegexpFilter) (node : Node) :
    RegexpFilter.Filter f node = true ↔
      node.kind = f.Type' ∧
        ∃ nm, GetName node = some nm ∧ f.Pattern.MatchString nm = true := by
  unfold RegexpFilter.Filter
  cases hg : GetName node with
  | none => simp
  | some nm => simp

/-- What `MethodFilter.Filter` accepts: a `funcDecl` with exactly one receiver
field, whose resolved type name — with the resolution error discarded, leaving
the empty string — equals `ReceiverType`, subject to the exported-only flag. -/
theorem methodFilter_iff (f : MethodFilter) (node : Node) :
    MethodFilter.Filter f node = true ↔
      ∃ fld name ftype body,
        node = Node.funcDecl (some (FieldList.mk [fld])) name ftype body ∧
          (typeName fld.ty).getD "" = f.ReceiverType ∧
          (f.ExportedOnly = true → isExported name = true) := by
  cases node with
  | funcDecl recv name ftype body =>
    cases recv with
    | none => simp [MethodFilter.Filter]
    | some fl =>
      cases fl with
      | mk list =>
        match list with
        | [] => simp [MethodFilter.Filter, FieldList.list]
        | [fld] =>
          unfold MethodFilter.Filter
          simp only [FieldList.list]
          by_cases hrt : (typeName fld.ty).getD "" = f.ReceiverType
          · by_cases hEO : f.ExportedOnly
            · by_cases hex : isExported name
              · simp only [hrt, hEO, hex, bne]
                simp
                exact ⟨fld, name, ⟨rfl, rfl⟩, hrt, hex⟩
              · simp [hrt, hEO, hex, bne]
            · simp [hrt, hEO, bne]
          · simp [hrt, bne]
        | f1 :: f2 :: rest => simp [MethodFilter.Filter, FieldList.list]
  | ident a => simp [MethodFilter.Filter]
  | basicLit a => simp [MethodFilter.Filter]
  | selectorExpr a b => simp [MethodFilter.Filter]
  | starExpr a => simp [MethodFilter.Filter]
  | arrayType a => simp [MethodFilter.Filter]
  | typeSpec a b => simp [MethodFilter.Filter]
  | funcTypeNode a => simp [MethodFilter.Filter]
  | fieldListNode a => simp [MethodFilter.Filter]
  | fieldNode a => simp [MethodFilter.Filter]
  | blockStmt a => simp [MethodFilter.Filter]
  | exprStmt a => simp [MethodFilter.Filter]
  | callExpr a b => simp [MethodFilter.Filter]

theorem setFilter_kind {f : SetFilter} {node : Node}
    (h : SetFilter.Filter f node = true) : node.kind = f.Type' :=
  ((setFilter_iff f node).1 h).1

theorem regexpFilter_kind {f : RegexpFilter} {node : Node}
    (h : RegexpFilter.Filter f node = true) : node.kind = f.Type' :=
  ((regexpFilter_iff f node).1 h).1

theorem methodFilter_kind {f : MethodFilter} {node : Node}
    (h : MethodFilter.Filter f node = true) : node.kind = Kind.funcDecl := by
  rcases (methodFilter_iff f node).1 h with ⟨fld, name, ftype, body, rfl, _, _⟩
  rfl

/-!
## The claims
-/

/-- C1.  Match-pruning: for every root and every filter, in a tree whose
pre-order enumeration repeats no node, if a node `N` satisfies the filter then
no proper descendant `M` of `N` appears in the result of `find` — even when
`M` itself satisfies the filter (no assumption on `M` is made). -/
theorem matchPruning (filter : Node → Bool) (root N M : Node)
    (htree : (preorder root).Nodup) (hN : N ∈ preorder root)
    (hfN : filter N = true) (hM : M ∈ strictDescendants N) :
    M ∉ find root filter :=
  find_pruning filter root htree N M hN hfN hM

/-- Witness for C1: in the concrete tree `svcRoot`, the nested declaration
`svcInner` satisfies the filter yet is absent from `find`'s result because its
ancestor `svcRoot` matches. -/
theorem matchPruning_witness :
    SetFilter.Filter abFilter svcInner = true ∧
      svcInner ∉ find svcRoot (SetFilter.Filter abFilter) := by
  refine ⟨by decide, matchPruning (SetFilter.Filter abFilter) svcRoot svcRoot svcInner
    ?_ ?_ (by decide) ?_⟩
  · simp [svcRoot, svcInner, preorder_def, strictDescendants, Node.children]
  · rw [preorder_def]
    exact List.mem_cons_self _ _
  · simp [svcRoot, svcInner, strictDescendants, Node.children, preorder_def]

/-- C2 counterexample: a `FilterFunc`-wrapped predicate implements the Filter
interface but has no target kind, and one `Find` call with it returns nodes of
two different kinds — so it is not the case that every node of the result has
a single configured target kind. -/
theorem findKind_counterexample :
    ¬ ∃ K : Kind, ∀ m ∈ Find [Node.ident "a", Node.basicLit "b"]
      (FilterFunc.Filter fun _ => true), m.kind = K := by
  rintro ⟨K, h⟩
  have hEval : Find [Node.ident "a", Node.basicLit "b"]
      (FilterFunc.Filter fun _ => true) = [Node.ident "a", Node.basicLit "b"] := by
    simp [Find_eq_flatMap, find_eq_find1, find1_def, FilterFunc.Filter]
  have ha := h (Node.ident "a") (by rw [hEval]; simp)
  have hb := h (Node.basicLit "b") (by rw [hEval]; simp)
  rw [← ha] at hb
  exact Kind.noConfusion hb

/-- C2 (amended): every node returned by `Find` under a `SetFilter` or
`RegexpFilter` has the filter's configured `Type`, and under a `MethodFilter`
is a function declaration; a `FilterFunc` carries no kind constraint. -/
theorem findKind_constrained :
    (∀ (f : SetFilter) (nodes : List Node) (m : Node),
        m ∈ Find nodes (SetFilter.Filter f) → m.kind = f.Type') ∧
    (∀ (f : RegexpFilter) (nodes : List Node) (m : Node),
        m ∈ Find nodes (RegexpFilter.Filter f) → m.kind = f.Type') ∧
    (∀ (f : MethodFilter) (nodes : List Node) (m : Node),
        m ∈ Find nodes (MethodFilter.Filter f) → m.kind = Kind.funcDecl) :=
  ⟨fun _ _ _ hm => setFilter_kind (Find_sound hm),
   fun _ _ _ hm => regexpFilter_kind (Find_sound hm),
   fun _ _ _ hm => methodFilter_kind (Find_sound hm)⟩

/-- Witness for C2 (amended), at a concrete `Find` call. -/
theorem findKind_constrained_witness : svcRoot.kind = Kind.typeSpec := by
  refine findKind_constrained.1 abFilter [svcRoot] svcRoot ?_
  have hEval : Find [svcRoot] (SetFilter.Filter abFilter) = [svcRoot] := by
    simp [Find_eq_flatMap, find_eq_find1, find1_def,
      show SetFilter.Filter abFilter svcRoot = true from by decide]
  rw [hEval]
  exact List.mem_cons_self _ _

/-- C3.  One `Find` call concatenates, in the given root order, each root's
matches; each root's matches are listed in pre-order (document) order, being a
sublist of the pre-order enumeration; and when no node occurs twice in the
input forest (the tree invariant) the result contains no node twice. -/
theorem findConcatOrderNodup (nodes : List Node) (filter : Node → Bool) :
    Find nodes filter = (nodes.flatMap fun n => find n filter) ∧
    (∀ n ∈ nodes, (find n filter).Sublist (preorder n)) ∧
    ((nodes.flatMap preorder).Nodup → (Find nodes filter).Nodup) :=
  ⟨Find_eq_flatMap nodes filter,
   fun n _ => by rw [find_eq_find1]; exact find1_sublist_preorder filter n,
   fun h => (Find_sublist nodes filter).nodup h⟩

/-- Witness for C3 at a concrete two-root forest. -/
theorem findConcatOrderNodup_witness :
    (Find [svcRoot, Node.ident "z"] (SetFilter.Filter abFilter)).Nodup := by
  refine (findConcatOrderNodup [svcRoot, Node.ident "z"]
    (SetFilter.Filter abFilter)).2.2 ?_
  simp [svcRoot, svcInner, preorder_def, strictDescendants, Node.children]

/-- C4 counterexample: with `ReceiverType = ""` and a receiver whose declared
type is the qualified name `pkg.T`, `typeName` resolves to no base name at all
(so in particular not to the configured receiver type), yet the filter
matches the declaration — because the discarded resolution error leaves the
empty string, which compares equal to the configured `""`. -/
theorem methodFilter_counterexample :
    MethodFilter.Filter ⟨"", false⟩ qualifiedRecvDecl = true ∧
      typeName qualifiedRecvField.ty = none := ⟨by decide, by decide⟩

/-- C4 (amended): the structural filter matches iff the node is a function
declaration with exactly one receiver field whose resolved type name — where
a failed resolution yields the empty string — equals `ReceiverType`, and,
when `ExportedOnly` is set, the declared name is exported.  In particular
pointer and value receivers of `T` both match `"T"`, two receiver fields
never match, and with `ExportedOnly` a lowercase name is excluded while the
uppercase one is included. -/
theorem methodFilter_characterization :
    (∀ (f : MethodFilter) (node : Node),
        MethodFilter.Filter f node = true ↔
          ∃ fld name ftype body,
            node = Node.funcDecl (some (FieldList.mk [fld])) name ftype body ∧
              (typeName fld.ty).getD "" = f.ReceiverType ∧
              (f.ExportedOnly = true → isExported name = true)) ∧
    MethodFilter.Filter ⟨"T", false⟩ valueRecvDecl = true ∧
    MethodFilter.Filter ⟨"T", false⟩ pointerRecvDecl = true ∧
    MethodFilter.Filter ⟨"T", false⟩ twoRecvDecl = false ∧
    MethodFilter.Filter ⟨"T", true⟩ twoRecvDecl = false ∧
    MethodFilter.Filter ⟨"T", true⟩ lowerGetDecl = false ∧
    MethodFilter.Filter ⟨"T", true⟩ valueRecvDecl = true :=
  ⟨methodFilter_iff, by decide, by decide, by decide, by decide, by decide, by decide⟩

/-- C5.  The pattern filter matches iff the node's kind equals the configured
kind and `MatchString` finds an occurrence within the extracted identifier;
with the unanchored literal pattern `Service`, the declaration named
`MyServiceImpl` — which contains the pattern only as a proper substring —
matches. -/
theorem regexpFilter_characterization :
    (∀ (f : RegexpFilter) (node : Node),
        RegexpFilter.Filter f node = true ↔
          node.kind = f.Type' ∧
            ∃ nm, GetName node = some nm ∧ f.Pattern.MatchString nm = true) ∧
    RegexpFilter.Filter ⟨Regexp.lit "Service", Kind.typeSpec⟩ myServiceImplDecl = true ∧
    GetName myServiceImplDecl = some "MyServiceImpl" ∧
    "MyServiceImpl" ≠ "Service" :=
  ⟨regexpFilter_iff, by decide, by decide, by decide⟩

/-- C6.  The set filter matches iff the node's kind equals the configured
kind and the extracted identifier is a member of the name list; two name
lists with the same membership (order and duplicates irrelevant) give the
same result on every node. -/
theorem setFilter_characterization :
    (∀ (f : SetFilter) (node : Node),
        SetFilter.Filter f node = true ↔
          node.kind = f.Type' ∧ ∃ nm, GetName node = some nm ∧ nm ∈ f.Names) ∧
    (∀ (names1 names2 : List String) (k : Kind) (node : Node),
        (∀ s, s ∈ names1 ↔ s ∈ names2) →
        SetFilter.Filter ⟨names1, k⟩ node = SetFilter.Filter ⟨names2, k⟩ node) := by
  refine ⟨setFilter_iff, fun l1 l2 k node h => ?_⟩
  rw [Bool.eq_iff_iff, setFilter_iff, setFilter_iff]
  simp only [h]

/-- Witness for C6: a reordered name list with a duplicate gives the same
verdict. -/
theorem setFilter_characterization_witness :
    SetFilter.Filter ⟨["B", "A", "B"], Kind.typeSpec⟩ svcRoot =
      SetFilter.Filter ⟨["A", "B"], Kind.typeSpec⟩ svcRoot := by
  refine setFilter_characterization.2 ["B", "A", "B"] ["A", "B"] Kind.typeSpec svcRoot ?_
  intro s
  simp only [List.mem_cons, List.not_mem_nil, or_false]
  tauto

/-- C7.  Identifier extraction: if the node's `Name` position holds an
identifier its text is returned; otherwise, if its `Sel` (accessed-member)
position holds an identifier, that text is returned; otherwise the extraction
reports not-found — and a not-found outcome makes the set and pattern filters
return false rather than raising an error. -/
theorem getNameOrderedFallback (n : Node) :
    (∀ s, nameField n = some (FieldVal.identVal s) → GetName n = some s) ∧
    ((∀ s, nameField n ≠ some (FieldVal.identVal s)) →
      ∀ s, selField n = some (FieldVal.identVal s) → GetName n = some s) ∧
    ((∀ s, nameField n ≠ some (FieldVal.identVal s)) →
      (∀ s, selField n ≠ some (FieldVal.identVal s)) → GetName n = none) ∧
    (GetName n = none → ∀ f : SetFilter, SetFilter.Filter f n = false) ∧
    (GetName n = none → ∀ f : RegexpFilter, RegexpFilter.Filter f n = false) := by
  refine ⟨?_, ?_, ?_, ?_, ?_⟩
  · intro s h
    cases n <;> simp [nameField] at h <;> simp [GetName, nameField, h]
  · intro h1 s h2
    cases n <;> simp [selField] at h2 <;> simp [GetName, nameField, selField, h2]
  · intro h1 h2
    cases n <;> first
      | rfl
      | exact absurd rfl (h1 _)
      | exact absurd rfl (h2 _)
  · intro hg f
    cases hb : SetFilter.Filter f n with
    | false => rfl
    | true =>
      rcases ((setFilter_iff f n).1 hb).2 with ⟨nm, hnm, _⟩
      rw [hg] at hnm
      exact Option.noConfusion hnm
  · intro hg f
    cases hb : RegexpFilter.Filter f n with
    | false => rfl
    | true =>
      rcases ((regexpFilter_iff f n).1 hb).2 with ⟨nm, hnm, _⟩
      rw [hg] at hnm
      exact Option.noConfusion hnm

/-- Witness for C7: the accessed-member fallback on a member-access node, and
the non-match propagation on a node with no identifier. -/
theorem getNameOrderedFallback_witness :
    GetName (Node.selectorExpr (Node.ident "svc") "Check") = some "Check" ∧
      SetFilter.Filter abFilter (Node.basicLit "3") = false := by
  constructor
  · exact (getNameOrderedFallback (Node.selectorExpr (Node.ident "svc") "Check")).2.1
      (by simp [nameField]) "Check" (by simp [selField])
  · exact (getNameOrderedFallback (Node.basicLit "3")).2.2.2.1 (by decide) abFilter

/-- C8 counterexample: a resolution failure does not always leave the
candidate non-matching: with `ReceiverType = ""` this unresolvable candidate
(array-typed receiver) is accepted by the structural filter. -/
theorem typeResolver_counterexample :
    typeName sliceRecvField.ty = none ∧
      MethodFilter.Filter ⟨"", false⟩ sliceRecvDecl = true := ⟨by decide, by decide⟩

/-- C8 (amended): `typeName` returns the name of a plain named type, recurses
through an indirection, and fails on every other modeled shape; for every
non-empty configured receiver type, a failed resolution makes that one
candidate non-matching; and a failing candidate never aborts the find call —
the sibling match is still returned. -/
theorem typeResolver_failure_isolated :
    (∀ s, typeName (Node.ident s) = some s) ∧
    (∀ t, typeName (Node.starExpr t) = typeName t) ∧
    (∀ x sel, typeName (Node.selectorExpr x sel) = none) ∧
    (∀ e, typeName (Node.arrayType e) = none) ∧
    (∀ (f : MethodFilter) (fld : Field) (name : String) (ftype : FuncType)
        (body : Option (List Node)),
        f.ReceiverType ≠ "" → typeName fld.ty = none →
        MethodFilter.Filter f
          (Node.funcDecl (some (FieldList.mk [fld])) name ftype body) = false) ∧
    find mixedBlock (MethodFilter.Filter ⟨"T", false⟩) = [tRecvDecl] := by
  refine ⟨fun s => rfl, fun t => rfl, fun x sel => rfl, fun e => rfl, ?_, ?_⟩
  · intro f fld name ftype body hne hfail
    unfold MethodFilter.Filter
    simp only [FieldList.list, hfail, Option.getD_none]
    rw [if_pos]
    rw [bne_iff_ne]
    exact fun h => hne h.symm
  · have h1 : MethodFilter.Filter ⟨"T", false⟩ sliceRecvDecl = false := by decide
    have h2 : MethodFilter.Filter ⟨"T", false⟩ tRecvDecl = true := by decide
    simp [mixedBlock, sliceRecvDecl, tRecvDecl, sliceRecvField, find_eq_find1,
      find1_def, Node.children, MethodFilter.Filter, FieldList.list, typeName,
      Field.ty, show ¬(("" : String) = "T") from by decide]

/-- Witness for C8 (amended): the failure clause applied at a concrete
candidate. -/
theorem typeResolver_failure_isolated_witness :
    MethodFilter.Filter ⟨"T", false⟩
      (Node.funcDecl (some (FieldList.mk [sliceRecvField])) "Run"
        (FuncType.mk none none) none) = false :=
  typeResolver_failure_isolated.2.2.2.2.1 ⟨"T", false⟩ sliceRecvField "Run"
    (FuncType.mk none none) none (by decide) (by decide)

/-- C9 counterexample: on an identifier node the earlier extractor succeeds
(`Name` is a plain string there) while the later extractor reports not-found,
so the later extractor does not preserve every success of the earlier one. -/
theorem extractor_counterexample :
    getName (Node.ident "x") = some "x" ∧ GetName (Node.ident "x") = none :=
  ⟨by decide, by decide⟩

/-- C9 (amended): the two extractors are incomparable rather than one
strictly generalizing the other: the earlier succeeds exactly on string-typed
`Name` fields (identifier nodes), where the later fails; the later succeeds
exactly on identifier-typed `Name` fields and on `Sel` fields, where the
earlier fails. -/
theorem extractor_evolution :
    (∀ n s, getName n = some s → nameField n = some (FieldVal.strVal s)) ∧
    (∀ n s, nameField n = some (FieldVal.identVal s) →
        getName n = none ∧ GetName n = some s) ∧
    (∀ x sel, getName (Node.selectorExpr x sel) = none ∧
        GetName (Node.selectorExpr x sel) = some sel) ∧
    (∀ s, getName (Node.ident s) = some s ∧ GetName (Node.ident s) = none) := by
  refine ⟨?_, ?_, fun x sel => ⟨rfl, rfl⟩, fun s => ⟨rfl, rfl⟩⟩
  · intro n s h
    cases hnf : nameField n with
    | none => rw [getName, hnf] at h; exact Option.noConfusion h
    | some v =>
      cases v with
      | identVal t => rw [getName, hnf] at h; exact Option.noConfusion h
      | strVal t =>
        rw [getName, hnf] at h
        simp at h
        rw [h]
  · intro n s h
    constructor
    · rw [getName, h]
    · rw [GetName]
      simp only [h]

/-- Witness for C9 (amended): the later extractor succeeding where the
earlier fails, at a concrete type declaration. -/
theorem extractor_evolution_witness :
    getName svcRoot = none ∧ GetName svcRoot = some "A" :=
  extractor_evolution.2.1 svcRoot "A" (by decide)

/-- C10.  The type resolver unwraps arbitrarily many levels of indirection:
for every nesting depth `n`, `n` pointer wrappers around the plain named type
`s` resolve to `s`, never failing on such shapes. -/
theorem typeName_nested_indirection (n : Nat) (s : String) :
    typeName (nestStar n (Node.ident s)) = some s := by
  induction n with
  | zero => rfl
  | succ k ih => simpa only [nestStar, typeName] using ih

end AstQuery
